import Mathlib

/-!
Verification of `embeddable-links-fixer` (src/index.ts).

Text is embedded as `List Char`.  The program's regular expressions
(`/https?:\/\/(?<!fixup)(twitter|x)\.com/g` and the instagram/tiktok
analogues, src/index.ts lines 71-75) are embedded as ordered lists of
literal alternatives: each pattern consists of a literal scheme
`http://` or `https://` (greedy `s?`, so the `https` alternative is
tried first) followed by a literal host, and the negative lookbehind
`(?<!fixup)` / `(?<!dd)` sits immediately after `://`, where the two
preceding characters are always `/` `/`, so the lookbehind is vacuously
true and the pattern matches exactly its finitely many literal
expansions.  `String.prototype.match` with a global regex returns the
array of all matches, of which the code uses only element 0, the
leftmost match; this is embedded as `findMatch` (leftmost occurrence of
any alternative, alternatives tried in backtracking order at each
position).  `String.prototype.replace` with a *string* first argument
replaces the first occurrence of that literal string; this is embedded
as `replaceFirst`.
-/

/-- Boolean prefix test on character lists (the usual `isPrefixOf`). -/
def isPref : List Char → List Char → Bool
  | [], _ => true
  | _ :: _, [] => false
  | a :: l, b :: s => a = b && isPref l s

/-- Regex match attempt at one fixed position: the first literal
alternative (in backtracking order) that is a prefix of `s`. -/
def matchAt (lits : List (List Char)) (s : List Char) : Option (List Char) :=
  match lits with
  | [] => none
  | l :: rest => if isPref l s then some l else matchAt rest s

/-- `text.match(re)[0]` for a global regex `re` given by literal
alternatives: the leftmost match of any alternative in `s`
(src/index.ts line 26). -/
def findMatch (lits : List (List Char)) : List Char → Option (List Char)
  | [] => matchAt lits []
  | c :: rest =>
    match matchAt lits (c :: rest) with
    | some m => some m
    | none => findMatch lits rest

/-- `text.replace(pat, repl)` with a string `pat`: replace the first
occurrence of the literal string `pat` (src/index.ts line 28). -/
def replaceFirst (pat repl : List Char) : List Char → List Char
  | [] => if pat = [] then repl else []
  | c :: rest =>
    if isPref pat (c :: rest) then repl ++ (c :: rest).drop pat.length
    else c :: replaceFirst pat repl rest

/-- `class UrlReplacer` (src/index.ts lines 18-33): a compiled pattern
(as its literal alternatives) and a replacement string. -/
structure UrlReplacer where
  pattern : List (List Char)
  replacement : List Char
deriving DecidableEq

/-- The body of the `while` loop in `UrlReplacer.apply` (src/index.ts lines
26-29), run with an explicit iteration budget: `none` means the budget
was exhausted with the loop still running.  The source loop has no
termination guard, so a rule whose replacement still matches its own
pattern loops forever; `none` for every budget models that divergence. -/
def UrlReplacer.applyFuel (r : UrlReplacer) : Nat → List Char → Option (List Char)
  | 0, _ => none
  | n + 1, result =>
    match findMatch r.pattern result with
    | none => some result
    | some m => r.applyFuel n (replaceFirst m r.replacement result)

/-- `UrlReplacer.apply` (src/index.ts lines 21-32).  The loop replaces
the leftmost match each iteration, so whenever it terminates at all on
the program's rules it does so within `text.length` iterations (one per
non-overlapping match); the budget `text.length + 1` is proved ample
for the program's rule set below. -/
def UrlReplacer.apply (r : UrlReplacer) (text : List Char) : Option (List Char) :=
  r.applyFuel (text.length + 1) text

/-- Literal expansions of `/https?:\/\/(?<!fixup)(twitter|x)\.com/g`
(src/index.ts line 72); greedy `s?` then ordered alternation. -/
def twitterPattern : List (List Char) :=
  [("https://twitter.com").data, ("https://x.com").data,
   ("http://twitter.com").data, ("http://x.com").data]

/-- Literal expansions of `/https?:\/\/(?<!dd)instagram\.com/g`
(src/index.ts line 73). -/
def instagramPattern : List (List Char) :=
  [("https://instagram.com").data, ("http://instagram.com").data]

/-- Literal expansions of `/https?:\/\/(?<!fixup)tiktok\.com/g`
(src/index.ts line 74). -/
def tiktokPattern : List (List Char) :=
  [("https://tiktok.com").data, ("http://tiktok.com").data]

def twitterReplacer : UrlReplacer :=
  ⟨twitterPattern, ("https://fixupx.com").data⟩

def instagramReplacer : UrlReplacer :=
  ⟨instagramPattern, ("https://ddinstagram.com").data⟩

def tiktokReplacer : UrlReplacer :=
  ⟨tiktokPattern, ("https://fixuptiktok.com").data⟩

/-- `this.replacers` (src/index.ts lines 71-75). -/
def replacers : List UrlReplacer :=
  [twitterReplacer, instagramReplacer, tiktokReplacer]

/-- `detectAndFixLinks` (src/index.ts lines 200-209): empty text is
falsy and returned unchanged, otherwise all replacers are folded over
the text left to right.  `none` propagates divergence of a stage. -/
def detectAndFixLinks (rs : List UrlReplacer) (text : List Char) : Option (List Char) :=
  if text = [] then some text
  else List.foldl (fun cur r => Option.bind cur r.apply) (some text) rs

/-- Reference one-pass scan used to state what the loop computes: walk
left to right, at each position emit the replacement and skip the
match if one starts here, else keep the character; the second component
counts the replacements made.  Structural in the `Nat` budget so that
it is kernel-computable; `scanRep` instantiates the budget with the
text length, which is always sufficient. -/
def scanRepAux (lits : List (List Char)) (repl : List Char) : Nat → List Char → List Char × Nat
  | 0, s => (s, 0)
  | _ + 1, [] => ([], 0)
  | n + 1, c :: rest =>
    match matchAt lits (c :: rest) with
    | some m =>
      let r := scanRepAux lits repl n (rest.drop (m.length - 1))
      (repl ++ r.1, r.2 + 1)
    | none =>
      let r := scanRepAux lits repl n rest
      (c :: r.1, r.2)

def scanRep (lits : List (List Char)) (repl : List Char) (s : List Char) : List Char × Nat :=
  scanRepAux lits repl s.length s

/-- Number of leftmost non-overlapping matches of the pattern in `s`. -/
def countMatchesAux (lits : List (List Char)) : Nat → List Char → Nat
  | 0, _ => 0
  | _ + 1, [] => 0
  | n + 1, c :: rest =>
    match matchAt lits (c :: rest) with
    | some m => countMatchesAux lits n (rest.drop (m.length - 1)) + 1
    | none => countMatchesAux lits n rest

def countMatches (lits : List (List Char)) (s : List Char) : Nat :=
  countMatchesAux lits s.length s

/-- `l` is nonempty, starts with `h`, and contains `h` nowhere else.
Every literal alternative and every replacement string of the program
has this shape (`http…`, `https://fixupx.com`, …). -/
def hOnlyAtHead : List Char → Bool
  | [] => false
  | c :: rest => c = 'h' && rest.all (fun d => d ≠ 'h')

/-- `l` and `p` differ at some index below both lengths, so `l` can be
a prefix of no extension of `p`. -/
def mismatchWithin : List Char → List Char → Bool
  | a :: l, b :: p => !(a = b) || mismatchWithin l p
  | _, _ => false

/-- Decidable side condition relating the literal alternatives of a pattern
and a replacement string, satisfied by every (pattern, replacement)
pair of the program (same-rule and cross-rule): the replacement and
all alternatives have `h` exactly at their head, and every alternative
mismatches the replacement early.  These facts make a freshly inserted
replacement unable to create, overlap, or participate in any match. -/
def hGuard (lits : List (List Char)) (repl : List Char) : Bool :=
  hOnlyAtHead repl && lits.all (fun l => hOnlyAtHead l && mismatchWithin l repl)

/-- `p` can start no match at any of its positions, whatever text
follows it. -/
def Inert (lits : List (List Char)) (p : List Char) : Prop :=
  ∀ j, j < p.length → ∀ y, matchAt lits (p.drop j ++ y) = none

/-- `MonitorState` fields of `ClipboardMonitor` relevant to the tick
(src/index.ts lines 47, 52). -/
structure MonitorState where
  lastClipboardContent : List Char
  isMonitoringEnabled : Bool
deriving DecidableEq

/-- Observable effects of one tick: whether the clipboard was read, and
the text passed to `writeClipboard` if it was invoked. -/
structure TickEffects where
  didRead : Bool
  wrote : Option (List Char)
deriving DecidableEq

/-- `checkClipboard` (src/index.ts lines 302-347) as a pure transition.
`clipboardContent` is what `readClipboard` returned (read failures
surface as the empty string, lines 247-250); `writeOk` is what
`writeClipboard` returned.  Note that line 341 assigns
`lastClipboardContent = fixedContent` unconditionally, whether or not
the write succeeded, so `writeOk` does not influence the state.
`none` models a tick that never completes (divergent transform). -/
def checkClipboard (st : MonitorState) (clipboardContent : List Char) (writeOk : Bool) :
    Option (MonitorState × TickEffects) :=
  if st.isMonitoringEnabled then
    if clipboardContent = [] then some (st, ⟨true, none⟩)
    else if clipboardContent = st.lastClipboardContent then some (st, ⟨true, none⟩)
    else
      match detectAndFixLinks replacers clipboardContent with
      | none => none
      | some fixedContent =>
        if fixedContent = [] then some (⟨clipboardContent, st.isMonitoringEnabled⟩, ⟨true, none⟩)
        else if fixedContent = clipboardContent then
          some (⟨clipboardContent, st.isMonitoringEnabled⟩, ⟨true, none⟩)
        else
          some (⟨fixedContent, st.isMonitoringEnabled⟩, ⟨true, some fixedContent⟩)
  else some (st, ⟨false, none⟩)

/-- `toggleMonitoring` (src/index.ts lines 153-159). -/
def toggleMonitoring (st : MonitorState) : MonitorState :=
  ⟨st.lastClipboardContent, !st.isMonitoringEnabled⟩

/-- A sequence of ticks, each driven by one `(readResult, writeOk)`
pair; returns the final state and the per-tick effects. -/
def runTicks (st : MonitorState) : List (List Char × Bool) → Option (MonitorState × List TickEffects)
  | [] => some (st, [])
  | (c, w) :: rest =>
    match checkClipboard st c w with
    | none => none
    | some (st', e) =>
      match runTicks st' rest with
      | none => none
      | some (stf, es) => some (stf, e :: es)

/-! ### Generic list helpers -/

theorem drop_append_le : ∀ (j : Nat) (a t : List Char), j ≤ a.length →
    (a ++ t).drop j = a.drop j ++ t
  | 0, _, _, _ => rfl
  | j + 1, [], _, h => absurd h (by simp)
  | j + 1, _ :: a, t, h => by
    simpa using drop_append_le j a t (Nat.le_of_succ_le_succ h)

theorem drop_append_add : ∀ (a t : List Char) (k : Nat),
    (a ++ t).drop (a.length + k) = t.drop k
  | [], _, _ => by simp
  | x :: a, t, k => by
    simpa [Nat.succ_add] using drop_append_add a t k

theorem drop_append_self (a t : List Char) : (a ++ t).drop a.length = t := by
  simpa using drop_append_add a t 0

theorem drop_mem : ∀ (n : Nat) (l : List Char) (x : Char), x ∈ l.drop n → x ∈ l
  | 0, _, _, h => h
  | _ + 1, [], _, h => by simp at h
  | n + 1, _ :: l, x, h => List.mem_cons_of_mem _ (drop_mem n l x h)

/-! ### Facts about `isPref` -/

theorem isPref_refl_append : ∀ (l t : List Char), isPref l (l ++ t) = true
  | [], _ => rfl
  | a :: l, t => by simpa [isPref] using isPref_refl_append l t

theorem isPref_nil_right : ∀ {l : List Char}, isPref l [] = true → l = []
  | [], _ => rfl
  | _ :: _, h => by simp [isPref] at h

theorem isPref_decomp : ∀ (l s : List Char), isPref l s = true → s = l ++ s.drop l.length
  | [], s, _ => rfl
  | _ :: _, [], h => by simp [isPref] at h
  | a :: l, b :: s, h => by
    have h' : a = b ∧ isPref l s = true := by simpa [isPref] using h
    simpa [h'.1] using isPref_decomp l s h'.2

theorem isPref_length_le : ∀ (l s : List Char), isPref l s = true → l.length ≤ s.length
  | [], _, _ => Nat.zero_le _
  | _ :: _, [], h => by simp [isPref] at h
  | a :: l, b :: s, h => by
    have h' : a = b ∧ isPref l s = true := by simpa [isPref] using h
    exact Nat.succ_le_succ (isPref_length_le l s h'.2)

theorem isPref_append_ext : ∀ (l u v : List Char), isPref l u = true → isPref l (u ++ v) = true
  | [], _, _, _ => rfl
  | _ :: _, [], _, h => by simp [isPref] at h
  | a :: l, b :: u, v, h => by
    have h' : a = b ∧ isPref l u = true := by simpa [isPref] using h
    simp only [List.cons_append, isPref, h'.1, decide_eq_true_eq, if_true]
    simpa [h'.1] using isPref_append_ext l u v h'.2

theorem isPref_of_append_le : ∀ (l u v : List Char), isPref l (u ++ v) = true →
    l.length ≤ u.length → isPref l u = true
  | [], _, _, _, _ => rfl
  | _ :: _, [], _, _, hle => by simp at hle
  | a :: l, b :: u, v, h, hle => by
    have h' : a = b ∧ isPref l (u ++ v) = true := by simpa [isPref] using h
    simp only [isPref, h'.1, decide_eq_true_eq, if_true]
    simpa [h'.1] using isPref_of_append_le l u v h'.2 (Nat.le_of_succ_le_succ (by simpa using hle))

theorem isPref_cross : ∀ (u l w : List Char) (hp : isPref l (u ++ 'h' :: w) = true)
    (hl : u.length < l.length), l.get ⟨u.length, hl⟩ = 'h'
  | [], l, w, hp, hl => by
    match l, hl with
    | c :: l', _ =>
      have h' : c = 'h' ∧ isPref l' w = true := by simpa [isPref] using hp
      simpa [List.get] using h'.1
  | x :: u, l, w, hp, hl => by
    match l, hl with
    | c :: l', hl =>
      have h' : c = x ∧ isPref l' (u ++ 'h' :: w) = true := by simpa [isPref] using hp
      simpa [List.get] using isPref_cross u l' w h'.2 (Nat.lt_of_succ_lt_succ hl)

/-! ### Facts about `matchAt` and `findMatch` -/

theorem matchAt_none_iff : ∀ {lits : List (List Char)} {s : List Char},
    matchAt lits s = none ↔ ∀ l ∈ lits, isPref l s = false
  | [], s => by simp [matchAt]
  | l :: rest, s => by
    cases hl : isPref l s with
    | true =>
      simp only [matchAt, hl, if_true]
      constructor
      · intro h; cases h
      · intro h; have := h l (List.mem_cons_self _ _); rw [hl] at this; cases this
    | false =>
      simp only [matchAt, hl, Bool.false_eq_true, if_false]
      rw [matchAt_none_iff]
      constructor
      · intro h l' hl'
        rcases List.mem_cons.mp hl' with rfl | hmem
        · exact hl
        · exact h l' hmem
      · intro h l' hl'; exact h l' (List.mem_cons_of_mem _ hl')

theorem matchAt_some : ∀ (lits : List (List Char)) (s m : List Char),
    matchAt lits s = some m → m ∈ lits ∧ isPref m s = true
  | [], _, _, h => by simp [matchAt] at h
  | l :: rest, s, m, h => by
    cases hl : isPref l s with
    | true =>
      have hm : l = m := by simpa [matchAt, hl] using h
      subst hm
      exact ⟨List.mem_cons_self _ _, hl⟩
    | false =>
      have h' : matchAt rest s = some m := by simpa [matchAt, hl] using h
      rcases matchAt_some rest s m h' with ⟨h1, h2⟩
      exact ⟨List.mem_cons_of_mem _ h1, h2⟩

theorem findMatch_none_iff : ∀ {lits : List (List Char)} {s : List Char},
    findMatch lits s = none ↔ ∀ j, matchAt lits (s.drop j) = none
  | lits, [] => by
    constructor
    · intro h j
      simpa [List.drop_nil] using (by simpa [findMatch] using h : matchAt lits [] = none)
    · intro h; simpa [findMatch] using h 0
  | lits, c :: rest => by
    cases hm : matchAt lits (c :: rest) with
    | some m =>
      constructor
      · intro h; simp [findMatch, hm] at h
      · intro h
        have h0 := h 0
        rw [List.drop_zero, hm] at h0
        cases h0
    | none =>
      constructor
      · intro h j
        cases j with
        | zero => simpa using hm
        | succ j =>
          have h' : findMatch lits rest = none := by simpa [findMatch, hm] using h
          simpa using findMatch_none_iff.mp h' j
      · intro h
        have h' : findMatch lits rest = none :=
          findMatch_none_iff.mpr (fun j => by simpa using h (j + 1))
        simp [findMatch, hm, h']

theorem findMatch_decomp : ∀ (lits : List (List Char)) (s m : List Char),
    findMatch lits s = some m →
    ∃ a b, s = a ++ m ++ b ∧ matchAt lits (m ++ b) = some m ∧
      ∀ j, j < a.length → matchAt lits (s.drop j) = none
  | lits, [], m, h => by
    have hm : matchAt lits [] = some m := by simpa [findMatch] using h
    have h0 := (matchAt_some lits [] m hm).2
    have hnil : m = [] := isPref_nil_right h0
    exact ⟨[], [], by simp [hnil], by simpa [hnil] using hm, by simp⟩
  | lits, c :: rest, m, h => by
    cases hm : matchAt lits (c :: rest) with
    | some m' =>
      have hm' : m' = m := by simpa [findMatch, hm] using h
      subst hm'
      have hpref := (matchAt_some lits (c :: rest) m' hm).2
      have hdec := isPref_decomp _ _ hpref
      refine ⟨[], (c :: rest).drop m'.length, by simpa using hdec, ?_, by simp⟩
      rw [← hdec]
      exact hm
    | none =>
      have h' : findMatch lits rest = some m := by simpa [findMatch, hm] using h
      rcases findMatch_decomp lits rest m h' with ⟨a, b, hab, hmb, hfree⟩
      refine ⟨c :: a, b, by simp [hab], hmb, ?_⟩
      intro j hj
      cases j with
      | zero => simpa using hm
      | succ j => simpa using hfree j (Nat.lt_of_succ_lt_succ hj)

/-! ### Facts about the guard conditions -/

theorem hGuard_repl {lits : List (List Char)} {repl : List Char}
    (h : hGuard lits repl = true) : hOnlyAtHead repl = true :=
  ((Bool.and_eq_true _ _).mp h).1

theorem hGuard_lit {lits : List (List Char)} {repl : List Char}
    (h : hGuard lits repl = true) {l : List Char} (hl : l ∈ lits) :
    hOnlyAtHead l = true ∧ mismatchWithin l repl = true := by
  have h' := ((Bool.and_eq_true _ _).mp h).2
  have := List.all_eq_true.mp h' l hl
  exact (Bool.and_eq_true _ _).mp this

theorem hOnlyAtHead_shape : ∀ {l : List Char}, hOnlyAtHead l = true →
    ∃ t, l = 'h' :: t ∧ ∀ x ∈ t, x ≠ 'h'
  | [], h => by simp [hOnlyAtHead] at h
  | c :: t, h => by
    have h' : c = 'h' ∧ ∀ x ∈ t, ¬x = 'h' := by simpa [hOnlyAtHead] using h
    exact ⟨t, by simp [h'.1], h'.2⟩

theorem hOnlyAtHead_ne_nil {l : List Char} (h : hOnlyAtHead l = true) : l ≠ [] := by
  rcases hOnlyAtHead_shape h with ⟨t, rfl, _⟩
  simp

theorem hOnlyAtHead_get {l : List Char} (h : hOnlyAtHead l = true) (i : Nat)
    (hi : i < l.length) (hpos : 0 < i) : l.get ⟨i, hi⟩ ≠ 'h' := by
  rcases hOnlyAtHead_shape h with ⟨t, rfl, ht⟩
  match i, hpos with
  | i + 1, _ =>
    have hi' : i < t.length := Nat.lt_of_succ_lt_succ hi
    have : ('h' :: t).get ⟨i + 1, hi⟩ = t.get ⟨i, hi'⟩ := rfl
    rw [this]
    exact ht _ (t.get_mem _ _)

theorem mismatchWithin_not_pref : ∀ (l p y : List Char), mismatchWithin l p = true →
    isPref l (p ++ y) = false
  | [], p, _, h => by simp [mismatchWithin.eq_def] at h
  | a :: l, [], _, h => by simp [mismatchWithin] at h
  | a :: l, b :: p, y, h => by
    have h' : ¬a = b ∨ mismatchWithin l p = true := by simpa [mismatchWithin] using h
    by_cases hab : a = b
    · rcases h' with h1 | h2
      · exact absurd hab h1
      · simp [isPref, hab, mismatchWithin_not_pref l p y h2]
    · simp [isPref, hab]

/-! ### Facts about `Inert` -/

theorem inert_nil (lits : List (List Char)) : Inert lits [] := by
  intro j hj y; simp at hj

theorem inert_tail {lits : List (List Char)} {x : Char} {p : List Char}
    (h : Inert lits (x :: p)) : Inert lits p := by
  intro j hj y
  simpa using h (j + 1) (Nat.succ_lt_succ hj) y

theorem inert_append {lits : List (List Char)} {c d : List Char}
    (hc : Inert lits c) (hd : Inert lits d) : Inert lits (c ++ d) := by
  intro j hj y
  by_cases h : j < c.length
  · rw [drop_append_le j c d (Nat.le_of_lt h), List.append_assoc]
    exact hc j h (d ++ y)
  · have hj' : j - c.length < d.length := by
      simp only [List.length_append] at hj; omega
    have hje : j = c.length + (j - c.length) := by omega
    rw [hje, drop_append_add]
    exact hd _ hj' y

theorem findMatch_append_inert : ∀ (c : List Char) {lits : List (List Char)}
    {t : List Char}, Inert lits c → findMatch lits (c ++ t) = findMatch lits t
  | [], _, t, _ => rfl
  | x :: c, lits, t, h => by
    have h0 : matchAt lits (x :: (c ++ t)) = none := by
      simpa using h 0 (by simp) t
    show findMatch lits (x :: (c ++ t)) = findMatch lits t
    rw [findMatch, h0]
    exact findMatch_append_inert c (inert_tail h)

theorem inert_repl {lits : List (List Char)} {repl : List Char}
    (hg : hGuard lits repl = true) : Inert lits repl := by
  intro j hj y
  rw [matchAt_none_iff]
  intro l hl
  rcases hGuard_lit hg hl with ⟨hlh, hlm⟩
  cases j with
  | zero =>
    simpa using mismatchWithin_not_pref l repl y hlm
  | succ k =>
    rcases hOnlyAtHead_shape (hGuard_repl hg) with ⟨rt, hre, hrt⟩
    subst hre
    have hk : k < rt.length := by simpa using hj
    have hd : ('h' :: rt).drop (k + 1) = rt.drop k := rfl
    rw [hd]
    cases hdk : rt.drop k with
    | nil =>
      exfalso
      have := congrArg List.length hdk
      simp [List.length_drop] at this
      omega
    | cons d0 d' =>
      have hd0 : d0 ∈ rt := drop_mem k rt d0 (by rw [hdk]; exact List.mem_cons_self _ _)
      have hd0h : d0 ≠ 'h' := hrt d0 hd0
      rcases hOnlyAtHead_shape hlh with ⟨lt, hle, _⟩
      subst hle
      simp [isPref, Ne.symm hd0h]

theorem inert_extend {lits : List (List Char)} {repl a t : List Char}
    (hg : hGuard lits repl = true)
    (ha : ∀ j, j < a.length → matchAt lits ((a ++ t).drop j) = none) :
    Inert lits (a ++ repl) := by
  intro j hj y
  by_cases hja : j < a.length
  · rw [drop_append_le j a repl (Nat.le_of_lt hja), List.append_assoc, matchAt_none_iff]
    intro l hl
    rcases hGuard_lit hg hl with ⟨hlh, hlm⟩
    by_cases hp : isPref l (a.drop j ++ (repl ++ y)) = true
    · exfalso
      by_cases hlen : l.length ≤ (a.drop j).length
      · have h1 : isPref l (a.drop j) = true :=
          isPref_of_append_le l (a.drop j) (repl ++ y) hp hlen
        have h2 : isPref l ((a ++ t).drop j) = true := by
          rw [drop_append_le j a t (Nat.le_of_lt hja)]
          exact isPref_append_ext l (a.drop j) t h1
        have h3 := matchAt_none_iff.mp (ha j hja) l hl
        rw [h2] at h3
        cases h3
      · push_neg at hlen
        rcases hOnlyAtHead_shape (hGuard_repl hg) with ⟨rt, hre, _⟩
        have hp' : isPref l (a.drop j ++ 'h' :: (rt ++ y)) = true := by
          rw [hre] at hp
          simpa using hp
        have hget := isPref_cross (a.drop j) l (rt ++ y) hp' hlen
        have hpos : 0 < (a.drop j).length := by
          simp only [List.length_drop]; omega
        exact hOnlyAtHead_get hlh _ hlen hpos hget
    · simpa using hp
  · have hj' : j - a.length < repl.length := by
      simp only [List.length_append] at hj; omega
    have hje : j = a.length + (j - a.length) := by omega
    rw [hje, drop_append_add]
    exact inert_repl hg _ hj' y

/-! ### Equations for the reference scan -/

theorem scanRepAux_congr (lits : List (List Char)) (repl : List Char) :
    ∀ (n m : Nat) (s : List Char), s.length ≤ n → s.length ≤ m →
      scanRepAux lits repl n s = scanRepAux lits repl m s
  | 0, m, s, hn, _ => by
    have hs : s = [] := List.eq_nil_of_length_eq_zero (Nat.le_zero.mp hn)
    subst hs
    cases m <;> rfl
  | n + 1, 0, s, _, hm => by
    have hs : s = [] := List.eq_nil_of_length_eq_zero (Nat.le_zero.mp hm)
    subst hs; rfl
  | _ + 1, _ + 1, [], _, _ => rfl
  | n + 1, m + 1, c :: rest, hn, hm => by
    have hn' : rest.length ≤ n := Nat.le_of_succ_le_succ (by simpa using hn)
    have hm' : rest.length ≤ m := Nat.le_of_succ_le_succ (by simpa using hm)
    simp only [scanRepAux]
    cases hma : matchAt lits (c :: rest) with
    | some mm =>
      have hd : (rest.drop (mm.length - 1)).length ≤ rest.length := by
        simp only [List.length_drop]; omega
      have hrec := scanRepAux_congr lits repl n m
        (rest.drop (mm.length - 1)) (le_trans hd hn') (le_trans hd hm')
      simp [hrec]
    | none =>
      have hrec := scanRepAux_congr lits repl n m rest hn' hm'
      simp [hrec]

theorem scanRep_of_none {lits : List (List Char)} {repl : List Char} :
    ∀ {s : List Char}, findMatch lits s = none → scanRep lits repl s = (s, 0)
  | [], _ => rfl
  | c :: rest, h => by
    have hm : matchAt lits (c :: rest) = none := by
      simpa using findMatch_none_iff.mp h 0
    have h' : findMatch lits rest = none := by simpa [findMatch, hm] using h
    have ih : scanRepAux lits repl rest.length rest = (rest, 0) := scanRep_of_none h'
    show scanRepAux lits repl (rest.length + 1) (c :: rest) = (c :: rest, 0)
    simp [scanRepAux, hm, ih]

theorem scanRep_decomp {lits : List (List Char)} :
    ∀ (repl : List Char) (a : List Char) {m b : List Char},
      (∀ j, j < a.length → matchAt lits ((a ++ m ++ b).drop j) = none) →
      matchAt lits (m ++ b) = some m → m ≠ [] →
      scanRep lits repl (a ++ m ++ b) =
        (a ++ repl ++ (scanRep lits repl b).1, (scanRep lits repl b).2 + 1)
  | repl, [], m, b, _, hmb, hne => by
    match m, hne with
    | m0 :: mr, _ =>
      have hmb' : matchAt lits (m0 :: (mr ++ b)) = some (m0 :: mr) := hmb
      show scanRepAux lits repl ((mr ++ b).length + 1) (m0 :: (mr ++ b)) = _
      simp only [scanRepAux, hmb']
      have hlen : (m0 :: mr).length - 1 = mr.length := by simp
      rw [hlen, drop_append_self]
      have hfe : scanRepAux lits repl (mr ++ b).length b = scanRep lits repl b :=
        scanRepAux_congr lits repl _ _ b (by simp) (Nat.le_refl _)
      rw [hfe]
      simp
  | repl, x :: a, m, b, hfree, hmb, hne => by
    have h0 : matchAt lits (x :: (a ++ m ++ b)) = none := by
      simpa using hfree 0 (by simp)
    have ih := scanRep_decomp repl a
      (fun j hj => by simpa using hfree (j + 1) (Nat.succ_lt_succ hj)) hmb hne
    have ih' : scanRepAux lits repl (a ++ m ++ b).length (a ++ m ++ b) =
        (a ++ repl ++ (scanRep lits repl b).1, (scanRep lits repl b).2 + 1) := ih
    show scanRepAux lits repl ((a ++ m ++ b).length + 1) (x :: (a ++ m ++ b)) = _
    simp only [scanRepAux, h0, ih']
    simp

theorem scanRepAux_count {lits : List (List Char)} {repl : List Char} :
    ∀ (n : Nat) (s : List Char), (scanRepAux lits repl n s).2 = countMatchesAux lits n s
  | 0, _ => rfl
  | _ + 1, [] => rfl
  | n + 1, c :: rest => by
    simp only [scanRepAux, countMatchesAux]
    cases hma : matchAt lits (c :: rest) with
    | some m => simp [scanRepAux_count n (rest.drop (m.length - 1))]
    | none => simp [scanRepAux_count n rest]

theorem scanRep_count {lits : List (List Char)} {repl : List Char} (s : List Char) :
    (scanRep lits repl s).2 = countMatches lits s :=
  scanRepAux_count s.length s

theorem scanRepAux_count_le (lits : List (List Char)) (repl : List Char) :
    ∀ (n : Nat) (s : List Char), (scanRepAux lits repl n s).2 ≤ s.length
  | 0, _ => Nat.zero_le _
  | _ + 1, [] => Nat.le_refl _
  | n + 1, c :: rest => by
    simp only [scanRepAux]
    cases hma : matchAt lits (c :: rest) with
    | some m =>
      have h1 := scanRepAux_count_le lits repl n (rest.drop (m.length - 1))
      have h2 : (rest.drop (m.length - 1)).length ≤ rest.length := by
        simp only [List.length_drop]; omega
      simp only [List.length_cons]
      omega
    | none =>
      have := scanRepAux_count_le lits repl n rest
      simp only [List.length_cons]
      omega

theorem scanRep_ne_nil {lits : List (List Char)} {repl : List Char}
    (hg : hGuard lits repl = true) :
    ∀ {s : List Char}, s ≠ [] → (scanRep lits repl s).1 ≠ []
  | [], h => absurd rfl h
  | c :: rest, _ => by
    show (scanRepAux lits repl (rest.length + 1) (c :: rest)).1 ≠ []
    simp only [scanRepAux]
    cases hma : matchAt lits (c :: rest) with
    | some m =>
      have hr := hOnlyAtHead_ne_nil (hGuard_repl hg)
      simp [hr]
    | none => simp

/-! ### The `while` loop of `UrlReplacer.apply` computes the scan -/

theorem applyFuel_succ_none {r : UrlReplacer} {f : Nat} {s : List Char}
    (h : findMatch r.pattern s = none) : r.applyFuel (f + 1) s = some s := by
  simp [UrlReplacer.applyFuel, h]

theorem applyFuel_succ_some {r : UrlReplacer} {f : Nat} {s m : List Char}
    (h : findMatch r.pattern s = some m) :
    r.applyFuel (f + 1) s = r.applyFuel f (replaceFirst m r.replacement s) := by
  simp [UrlReplacer.applyFuel, h]

theorem applyFuel_none_post (r : UrlReplacer) : ∀ (n : Nat) (s v : List Char),
    r.applyFuel n s = some v → findMatch r.pattern v = none
  | 0, s, v, h => by simp [UrlReplacer.applyFuel] at h
  | n + 1, s, v, h => by
    cases hm : findMatch r.pattern s with
    | none =>
      have hsv : s = v := by simpa [applyFuel_succ_none hm] using h
      subst hsv; exact hm
    | some m =>
      have h' : r.applyFuel n (replaceFirst m r.replacement s) = some v := by
        rw [applyFuel_succ_some hm] at h; exact h
      exact applyFuel_none_post r n _ v h'

theorem replaceFirst_pref {pat : List Char} (repl : List Char) :
    ∀ {s : List Char}, isPref pat s = true →
    replaceFirst pat repl s = repl ++ s.drop pat.length
  | [], h => by
    have hp : pat = [] := isPref_nil_right h
    simp [replaceFirst, hp]
  | c :: rest, h => by simp [replaceFirst, h]

theorem replaceFirst_occ :
    ∀ (repl : List Char) (a : List Char) {m b : List Char},
      (∀ j, j < a.length → isPref m ((a ++ m ++ b).drop j) = false) →
      replaceFirst m repl (a ++ m ++ b) = a ++ repl ++ b
  | repl, [], m, b, _ => by
    have h1 : isPref m (m ++ b) = true := isPref_refl_append m b
    have h2 := replaceFirst_pref repl h1
    rw [show (([] : List Char) ++ m) ++ b = m ++ b by simp]
    rw [h2, drop_append_self]
    simp
  | repl, x :: a, m, b, hfree => by
    have h0 : isPref m (x :: (a ++ m ++ b)) = false := by
      simpa using hfree 0 (by simp)
    show replaceFirst m repl (x :: (a ++ m ++ b)) = (x :: a) ++ repl ++ b
    simp only [replaceFirst, h0, Bool.false_eq_true, if_false]
    have ih := replaceFirst_occ repl a
      (fun j hj => by simpa using hfree (j + 1) (Nat.succ_lt_succ hj))
    have ih' : replaceFirst m repl (a ++ (m ++ b)) = a ++ (repl ++ b) := by
      simpa [List.append_assoc] using ih
    simp [ih']

theorem applyFuel_eq_scan_aux {lits : List (List Char)} {repl : List Char}
    (hg : hGuard lits repl = true) :
    ∀ (n : Nat) (t c : List Char) (fuel : Nat), t.length ≤ n → Inert lits c →
      (scanRep lits repl t).2 < fuel →
      UrlReplacer.applyFuel ⟨lits, repl⟩ fuel (c ++ t) =
        some (c ++ (scanRep lits repl t).1) := by
  intro n
  induction n with
  | zero =>
    intro t c fuel ht hc hcount
    have htn : t = [] := List.eq_nil_of_length_eq_zero (Nat.le_zero.mp ht)
    subst htn
    cases fuel with
    | zero => exact absurd hcount (by simp)
    | succ f =>
      cases hm : findMatch lits (c ++ []) with
      | none =>
        have hm' : findMatch lits [] = none := by
          rw [← findMatch_append_inert c hc]; exact hm
        rw [applyFuel_succ_none hm, scanRep_of_none hm']
      | some m =>
        exfalso
        rw [findMatch_append_inert c hc] at hm
        have hm' : matchAt lits [] = some m := by simpa [findMatch] using hm
        rcases matchAt_some lits [] m hm' with ⟨hmem, hpref⟩
        have hn : m = [] := isPref_nil_right hpref
        subst hn
        have := (hGuard_lit hg hmem).1
        simp [hOnlyAtHead] at this
  | succ n ih =>
    intro t c fuel ht hc hcount
    cases fuel with
    | zero => exact absurd hcount (by simp)
    | succ f =>
      cases hm : findMatch lits t with
      | none =>
        rw [applyFuel_succ_none (by rw [findMatch_append_inert c hc]; exact hm),
          scanRep_of_none hm]
      | some m =>
        rcases findMatch_decomp lits t m hm with ⟨a, b, hab, hmb, hfree⟩
        rcases matchAt_some lits _ m hmb with ⟨hmem, _⟩
        have hmh := (hGuard_lit hg hmem).1
        have hmne : m ≠ [] := hOnlyAtHead_ne_nil hmh
        subst hab
        have hstep := applyFuel_succ_some (r := ⟨lits, repl⟩) (f := f)
          (by rw [findMatch_append_inert c hc]; exact hm)
        rw [hstep]
        have hocc : ∀ j, j < (c ++ a).length →
            isPref m (((c ++ a) ++ m ++ b).drop j) = false := by
          intro j hj
          rw [List.length_append] at hj
          have hassoc0 : ((c ++ a) ++ m) ++ b = c ++ ((a ++ m) ++ b) := by
            simp [List.append_assoc]
          by_cases hjc : j < c.length
          · have hin := hc j hjc ((a ++ m) ++ b)
            have hassoc : (((c ++ a) ++ m) ++ b).drop j = c.drop j ++ ((a ++ m) ++ b) := by
              rw [hassoc0]
              exact drop_append_le j c _ (Nat.le_of_lt hjc)
            rw [hassoc]
            exact matchAt_none_iff.mp hin m hmem
          · have hk : j - c.length < a.length := by omega
            have hje : j = c.length + (j - c.length) := by omega
            have hassoc : (((c ++ a) ++ m) ++ b).drop j = ((a ++ m) ++ b).drop (j - c.length) := by
              rw [hassoc0]
              have hda := drop_append_add c ((a ++ m) ++ b) (j - c.length)
              rw [← hje] at hda
              exact hda
            rw [hassoc]
            exact matchAt_none_iff.mp (hfree _ hk) m hmem
        have hrepl : replaceFirst m repl ((c ++ a) ++ m ++ b) = (c ++ a) ++ repl ++ b :=
          replaceFirst_occ repl (c ++ a) hocc
        have hargs : replaceFirst m repl (c ++ ((a ++ m) ++ b)) =
            (c ++ (a ++ repl)) ++ b := by
          rw [show c ++ ((a ++ m) ++ b) = ((c ++ a) ++ m) ++ b by simp [List.append_assoc]]
          rw [hrepl]
          simp [List.append_assoc]
        rw [hargs]
        have hInew : Inert lits (c ++ (a ++ repl)) :=
          inert_append hc (inert_extend hg (fun j hj => by
            simpa [List.append_assoc] using hfree j hj))
        have hblen : b.length ≤ n := by
          have h1 : ((a ++ m) ++ b).length = a.length + m.length + b.length := by
            simp only [List.length_append]
          have h2 : 0 < m.length := List.length_pos.mpr hmne
          omega
        have hscan := scanRep_decomp repl a hfree hmb hmne
        have hcount' : (scanRep lits repl b).2 < f := by
          rw [hscan] at hcount
          simpa using Nat.lt_of_succ_lt_succ hcount
        have hrec := ih b (c ++ (a ++ repl)) f hblen hInew hcount'
        rw [hscan]
        simpa [List.append_assoc] using hrec

theorem apply_eq_scan {r : UrlReplacer} (hg : hGuard r.pattern r.replacement = true)
    (s : List Char) : r.apply s = some ((scanRep r.pattern r.replacement s).1) := by
  have hcount : (scanRep r.pattern r.replacement s).2 < s.length + 1 :=
    Nat.lt_succ_of_le (scanRepAux_count_le _ _ s.length s)
  have h := applyFuel_eq_scan_aux hg s.length s [] (s.length + 1)
    (Nat.le_refl _) (inert_nil _) hcount
  simpa [UrlReplacer.apply] using h

theorem apply_of_none {r : UrlReplacer} {s : List Char}
    (h : findMatch r.pattern s = none) : r.apply s = some s :=
  applyFuel_succ_none h

/-! ### A scan pass cannot create matches of another guarded pattern -/

theorem scan_preserves_none {lits lits' : List (List Char)} {repl : List Char}
    (hg : hGuard lits repl = true) (hg' : hGuard lits' repl = true) :
    ∀ (n : Nat) (s : List Char), s.length ≤ n → findMatch lits' s = none →
      findMatch lits' ((scanRep lits repl s).1) = none := by
  intro n
  induction n with
  | zero =>
    intro s hn hfs
    have hs : s = [] := List.eq_nil_of_length_eq_zero (Nat.le_zero.mp hn)
    subst hs
    simpa [scanRep, scanRepAux] using hfs
  | succ n ih =>
    intro s hn hfs
    cases hm : findMatch lits s with
    | none => rw [scanRep_of_none hm]; exact hfs
    | some m =>
      rcases findMatch_decomp lits s m hm with ⟨a, b, hab, hmb, hfree⟩
      rcases matchAt_some lits _ m hmb with ⟨hmem, _⟩
      have hmne : m ≠ [] := hOnlyAtHead_ne_nil (hGuard_lit hg hmem).1
      subst hab
      rw [scanRep_decomp repl a hfree hmb hmne]
      rw [findMatch_none_iff]
      intro j
      by_cases hj : j < (a ++ repl).length
      · have hin : Inert lits' (a ++ repl) :=
          inert_extend hg' (fun k hk => by
            simpa [List.append_assoc] using findMatch_none_iff.mp hfs k)
        have hmj := hin j hj ((scanRep lits repl b).1)
        have hdr : (a ++ repl ++ (scanRep lits repl b).1).drop j =
            (a ++ repl).drop j ++ (scanRep lits repl b).1 :=
          drop_append_le j (a ++ repl) _ (Nat.le_of_lt hj)
        rw [hdr]
        exact hmj
      · push_neg at hj
        have hje : j = (a ++ repl).length + (j - (a ++ repl).length) := by omega
        have hdr : (a ++ repl ++ (scanRep lits repl b).1).drop j =
            ((scanRep lits repl b).1).drop (j - (a ++ repl).length) := by
          have hda := drop_append_add (a ++ repl) ((scanRep lits repl b).1)
            (j - (a ++ repl).length)
          rw [← hje] at hda
          exact hda
        rw [hdr]
        have hb' : findMatch lits' b = none := by
          rw [findMatch_none_iff]
          intro k
          have hk := findMatch_none_iff.mp hfs ((a ++ m).length + k)
          rw [drop_append_add (a ++ m) b k] at hk
          exact hk
        have hblen : b.length ≤ n := by
          have h2 : 0 < m.length := List.length_pos.mpr hmne
          have h1 : ((a ++ m) ++ b).length = a.length + m.length + b.length := by
            simp only [List.length_append]
          omega
        exact findMatch_none_iff.mp (ih b hblen hb') _

/-! ### The guard holds for every rule pair of the program -/

theorem hGuardAll : ∀ r ∈ replacers, hGuard r.pattern r.replacement = true := by decide

theorem hGuardT : hGuard twitterReplacer.pattern twitterReplacer.replacement = true := by decide

theorem hGuardI : hGuard instagramReplacer.pattern instagramReplacer.replacement = true := by
  decide

theorem hGuardK : hGuard tiktokReplacer.pattern tiktokReplacer.replacement = true := by decide

theorem hGuardTI : hGuard twitterReplacer.pattern instagramReplacer.replacement = true := by
  decide

theorem hGuardTK : hGuard twitterReplacer.pattern tiktokReplacer.replacement = true := by decide

theorem hGuardIK : hGuard instagramReplacer.pattern tiktokReplacer.replacement = true := by
  decide

/-! ### `detectAndFixLinks` over the program's rule list -/

theorem detect_eq {s : List Char} (hs : s ≠ []) :
    detectAndFixLinks replacers s =
      ((twitterReplacer.apply s).bind instagramReplacer.apply).bind tiktokReplacer.apply := by
  simp [detectAndFixLinks, replacers, hs, List.foldl]

theorem detect_idem_aux (s : List Char) (hs : s ≠ []) :
    ∃ u, detectAndFixLinks replacers s = some u ∧ detectAndFixLinks replacers u = some u := by
  have h1 := apply_eq_scan hGuardT s
  set u1 := (scanRep twitterReplacer.pattern twitterReplacer.replacement s).1 with hu1
  have hf1 : findMatch twitterReplacer.pattern u1 = none :=
    applyFuel_none_post _ _ _ _ h1
  have hne1 : u1 ≠ [] := scanRep_ne_nil hGuardT hs
  have h2 := apply_eq_scan hGuardI u1
  set u2 := (scanRep instagramReplacer.pattern instagramReplacer.replacement u1).1 with hu2
  have hf2 : findMatch instagramReplacer.pattern u2 = none :=
    applyFuel_none_post _ _ _ _ h2
  have hf1' : findMatch twitterReplacer.pattern u2 = none :=
    scan_preserves_none hGuardI hGuardTI u1.length u1 (Nat.le_refl _) hf1
  have hne2 : u2 ≠ [] := scanRep_ne_nil hGuardI hne1
  have h3 := apply_eq_scan hGuardK u2
  set u3 := (scanRep tiktokReplacer.pattern tiktokReplacer.replacement u2).1 with hu3
  have hf3 : findMatch tiktokReplacer.pattern u3 = none :=
    applyFuel_none_post _ _ _ _ h3
  have hf1x : findMatch twitterReplacer.pattern u3 = none :=
    scan_preserves_none hGuardK hGuardTK u2.length u2 (Nat.le_refl _) hf1'
  have hf2x : findMatch instagramReplacer.pattern u3 = none :=
    scan_preserves_none hGuardK hGuardIK u2.length u2 (Nat.le_refl _) hf2
  have hne3 : u3 ≠ [] := scanRep_ne_nil hGuardK hne2
  refine ⟨u3, ?_, ?_⟩
  · rw [detect_eq hs, h1]
    show (instagramReplacer.apply u1).bind tiktokReplacer.apply = some u3
    rw [h2]
    show tiktokReplacer.apply u2 = some u3
    exact h3
  · rw [detect_eq hne3, apply_of_none hf1x]
    show (instagramReplacer.apply u3).bind tiktokReplacer.apply = some u3
    rw [apply_of_none hf2x]
    show tiktokReplacer.apply u3 = some u3
    exact apply_of_none hf3

/-! ### Characterization of one tick -/

theorem checkClipboard_cases {st : MonitorState} {c : List Char} {w : Bool}
    {st' : MonitorState} {e : TickEffects}
    (h : checkClipboard st c w = some (st', e)) :
    (st' = st ∧ e.wrote = none) ∨
    (c ≠ [] ∧ st' = ⟨c, st.isMonitoringEnabled⟩ ∧ e.wrote = none) ∨
    (∃ fc, detectAndFixLinks replacers c = some fc ∧ fc ≠ [] ∧ fc ≠ c ∧ c ≠ [] ∧
      st.isMonitoringEnabled = true ∧ st' = ⟨fc, st.isMonitoringEnabled⟩ ∧
      e = ⟨true, some fc⟩) := by
  by_cases hen : st.isMonitoringEnabled = true
  · by_cases hc0 : c = []
    · left
      have hx : checkClipboard st c w = some (st, ⟨true, none⟩) := by
        simp [checkClipboard, hen, hc0]
      rw [hx] at h
      have h' : st = st' ∧ (⟨true, none⟩ : TickEffects) = e := by simpa using h
      exact ⟨h'.1.symm, by rw [← h'.2]⟩
    · by_cases hcl : c = st.lastClipboardContent
      · left
        have hx : checkClipboard st c w = some (st, ⟨true, none⟩) := by
          simp [checkClipboard, hen, hc0, hcl]
        rw [hx] at h
        have h' : st = st' ∧ (⟨true, none⟩ : TickEffects) = e := by simpa using h
        exact ⟨h'.1.symm, by rw [← h'.2]⟩
      · rcases hdet : detectAndFixLinks replacers c with _ | fc
        · exfalso
          have hx : checkClipboard st c w = none := by
            simp [checkClipboard, hen, hc0, hcl, hdet]
          rw [hx] at h
          exact Option.noConfusion h
        · by_cases hfc0 : fc = []
          · right; left
            have hx : checkClipboard st c w =
                some (⟨c, st.isMonitoringEnabled⟩, ⟨true, none⟩) := by
              simp [checkClipboard, hen, hc0, hcl, hdet, hfc0]
            rw [hx] at h
            have h' : (⟨c, st.isMonitoringEnabled⟩ : MonitorState) = st' ∧
                (⟨true, none⟩ : TickEffects) = e := by simpa using h
            exact ⟨hc0, h'.1.symm, by rw [← h'.2]⟩
          · by_cases hfcc : fc = c
            · right; left
              have hx : checkClipboard st c w =
                  some (⟨c, st.isMonitoringEnabled⟩, ⟨true, none⟩) := by
                simp [checkClipboard, hen, hc0, hcl, hdet, hfcc]
              rw [hx] at h
              have h' : (⟨c, st.isMonitoringEnabled⟩ : MonitorState) = st' ∧
                  (⟨true, none⟩ : TickEffects) = e := by simpa using h
              exact ⟨hc0, h'.1.symm, by rw [← h'.2]⟩
            · right; right
              have hx : checkClipboard st c w =
                  some (⟨fc, st.isMonitoringEnabled⟩, ⟨true, some fc⟩) := by
                simp [checkClipboard, hen, hc0, hcl, hdet, hfc0, hfcc]
              rw [hx] at h
              have h' : (⟨fc, st.isMonitoringEnabled⟩ : MonitorState) = st' ∧
                  (⟨true, some fc⟩ : TickEffects) = e := by simpa using h
              exact ⟨fc, rfl, hfc0, hfcc, hc0, hen, h'.1.symm, h'.2.symm⟩
  · left
    have hen' : st.isMonitoringEnabled = false := by
      simpa using hen
    have hx : checkClipboard st c w = some (st, ⟨false, none⟩) := by
      simp [checkClipboard, hen']
    rw [hx] at h
    have h' : st = st' ∧ (⟨false, none⟩ : TickEffects) = e := by simpa using h
    exact ⟨h'.1.symm, by rw [← h'.2]⟩

theorem tick_last {st : MonitorState} {c : List Char} {w : Bool} {st' : MonitorState}
    {e : TickEffects} (h : checkClipboard st c w = some (st', e)) :
    st'.lastClipboardContent ≠ [] ∨
      st'.lastClipboardContent = st.lastClipboardContent := by
  rcases checkClipboard_cases h with ⟨h1, _⟩ | ⟨hc0, h1, _⟩ | ⟨fc, _, hfc0, _, _, _, h1, _⟩
  · right; rw [h1]
  · left; rw [h1]; exact hc0
  · left; rw [h1]; exact hfc0

theorem runTicks_last : ∀ (inputs : List (List Char × Bool)) (st stf : MonitorState)
    (es : List TickEffects), runTicks st inputs = some (stf, es) →
    stf.lastClipboardContent ≠ [] ∨ stf.lastClipboardContent = st.lastClipboardContent
  | [], st, stf, es, h => by
    right
    have h' : st = stf ∧ ([] : List TickEffects) = es := by simpa [runTicks] using h
    rw [← h'.1]
  | (c, w) :: rest, st, stf, es, h => by
    rcases hcc : checkClipboard st c w with _ | p
    · simp [runTicks, hcc] at h
    · rcases p with ⟨st1, e⟩
      rcases hrt : runTicks st1 rest with _ | q
      · simp [runTicks, hcc, hrt] at h
      · rcases q with ⟨stf', es'⟩
        simp only [runTicks, hcc, hrt] at h
        have h' : stf' = stf ∧ e :: es' = es := by simpa using h
        rcases runTicks_last rest st1 stf' es' hrt with h1 | h2
        · left; rw [← h'.1]; exact h1
        · rcases tick_last hcc with h3 | h4
          · left; rw [← h'.1, h2]; exact h3
          · right; rw [← h'.1, h2, h4]

theorem runTicks_disabled (st : MonitorState) (h : st.isMonitoringEnabled = false) :
    ∀ inputs : List (List Char × Bool),
      runTicks st inputs = some (st, inputs.map (fun _ => ⟨false, none⟩))
  | [] => rfl
  | (c, w) :: rest => by
    have hcc : checkClipboard st c w = some (st, ⟨false, none⟩) := by
      simp [checkClipboard, h]
    simp [runTicks, hcc, runTicks_disabled st h rest]

/-! ### Claim theorems -/

/-- Claim C1, counterexample: starting from the initial state, the tick
reads "https://x.com" and the clipboard write FAILS (`writeOk = false`),
yet the tick ends with `lastClipboardContent = "https://fixupx.com"`,
the transformed result, which differs from the original content read —
refuting the claim that on a failed write `lastSeenText` still equals
the original content and is set to the result only on success
(src/index.ts line 341 runs unconditionally). -/
theorem c1_counterexample :
    checkClipboard ⟨[], true⟩ (("https://x.com").data) false =
      some (⟨("https://fixupx.com").data, true⟩,
        ⟨true, some (("https://fixupx.com").data)⟩) ∧
    ("https://fixupx.com").data ≠ ("https://x.com").data := by
  constructor
  · decide
  · decide

/-- Claim C1, amended: whenever the tick invokes the clipboard write
with text T and the write fails (`writeOk = false`), the tick still
ends with `lastClipboardContent = T` (the transformed result) — the
baseline update on line 341 does not depend on the write result. -/
theorem c1_amended (st : MonitorState) (c : List Char) (st' : MonitorState)
    (e : TickEffects) (T : List Char)
    (h : checkClipboard st c false = some (st', e)) (hw : e.wrote = some T) :
    st'.lastClipboardContent = T := by
  rcases checkClipboard_cases h with ⟨_, h2⟩ | ⟨_, _, h2⟩ | ⟨fc, _, _, _, _, _, h1, h2⟩
  · rw [h2] at hw; exact Option.noConfusion hw
  · rw [h2] at hw; exact Option.noConfusion hw
  · rw [h2] at hw
    have hfcT : fc = T := by simpa using hw
    rw [h1, ← hfcT]

/-- Witness for the amended claim C1 at a concrete failed-write tick. -/
theorem c1_amended_witness :
    (checkClipboard ⟨[], true⟩ (("https://x.com").data) false =
      some (⟨("https://fixupx.com").data, true⟩,
        ⟨true, some (("https://fixupx.com").data)⟩)) ∧
    ((⟨true, some (("https://fixupx.com").data)⟩ : TickEffects).wrote =
      some (("https://fixupx.com").data)) ∧
    (⟨("https://fixupx.com").data, true⟩ : MonitorState).lastClipboardContent =
      ("https://fixupx.com").data :=
  ⟨by decide, by decide,
    c1_amended ⟨[], true⟩ (("https://x.com").data)
      ⟨("https://fixupx.com").data, true⟩
      ⟨true, some (("https://fixupx.com").data)⟩
      (("https://fixupx.com").data) (by decide) (by decide)⟩

/-- Claim C2: if a tick with a successful write (`writeOk = true`)
invokes the clipboard write with transformed text T, then
`lastClipboardContent = T` at the end of that tick, and the next tick
that reads back T (external clipboard unchanged) performs no write and
leaves the state unchanged. -/
theorem c2_loop_prevention (st : MonitorState) (c : List Char) (st' : MonitorState)
    (e : TickEffects) (T : List Char) (w' : Bool)
    (h : checkClipboard st c true = some (st', e)) (hw : e.wrote = some T) :
    st'.lastClipboardContent = T ∧
    checkClipboard st' T w' = some (st', ⟨true, none⟩) := by
  rcases checkClipboard_cases h with ⟨_, h2⟩ | ⟨_, _, h2⟩ | ⟨fc, _, hfc0, _, _, hen, h1, h2⟩
  · rw [h2] at hw; exact Option.noConfusion hw
  · rw [h2] at hw; exact Option.noConfusion hw
  · rw [h2] at hw
    have hfcT : fc = T := by simpa using hw
    subst hfcT
    constructor
    · rw [h1]
    · rw [h1]
      simp [checkClipboard, hen, hfc0]

/-- Witness for claim C2 at a concrete successful-write tick followed
by a read-back tick. -/
theorem c2_loop_prevention_witness :
    (checkClipboard ⟨[], true⟩ (("https://x.com").data) true =
      some (⟨("https://fixupx.com").data, true⟩,
        ⟨true, some (("https://fixupx.com").data)⟩)) ∧
    ((⟨true, some (("https://fixupx.com").data)⟩ : TickEffects).wrote =
      some (("https://fixupx.com").data)) ∧
    ((⟨("https://fixupx.com").data, true⟩ : MonitorState).lastClipboardContent =
      ("https://fixupx.com").data ∧
    checkClipboard ⟨("https://fixupx.com").data, true⟩ (("https://fixupx.com").data) false =
      some (⟨("https://fixupx.com").data, true⟩, ⟨true, none⟩)) :=
  ⟨by decide, by decide,
    c2_loop_prevention ⟨[], true⟩ (("https://x.com").data)
      ⟨("https://fixupx.com").data, true⟩
      ⟨true, some (("https://fixupx.com").data)⟩
      (("https://fixupx.com").data) false (by decide) (by decide)⟩

/-- Claim C3 (code defect): the `while` loop of `UrlReplacer.apply`
(src/index.ts lines 26-29) has no no-progress guard, contrary to the
spec's requirement; for a rule whose replacement equals its own match —
pattern matching the literal "a" with replacement "a" — the loop never
terminates on input "a": after every number of iterations it is still
running (the budget-indexed loop returns `none` for every budget). -/
theorem c3_apply_diverges :
    ∀ n : Nat, (UrlReplacer.mk [['a']] ['a']).applyFuel n ['a'] = none := by
  intro n
  induction n with
  | zero => rfl
  | succ n ih => exact ih

/-- Claim C4: the full rewrite over the program's rule set is
idempotent: applying `detectAndFixLinks` to its own output returns
that output unchanged. -/
theorem c4_idempotent (s : List Char) :
    (detectAndFixLinks replacers s).bind (detectAndFixLinks replacers) =
      detectAndFixLinks replacers s := by
  by_cases hs : s = []
  · subst hs; rfl
  · rcases detect_idem_aux s hs with ⟨u, h1, h2⟩
    rw [h1]
    show detectAndFixLinks replacers u = some u
    exact h2

/-- Claim C5: if the pattern of no rule matches anywhere in `s` (including
the empty string), `detectAndFixLinks` returns `s` unchanged. -/
theorem c5_identity_no_match (s : List Char)
    (h : ∀ r ∈ replacers, findMatch r.pattern s = none) :
    detectAndFixLinks replacers s = some s := by
  by_cases hs : s = []
  · subst hs; rfl
  · rw [detect_eq hs, apply_of_none (h twitterReplacer (by simp [replacers]))]
    show (instagramReplacer.apply s).bind tiktokReplacer.apply = some s
    rw [apply_of_none (h instagramReplacer (by simp [replacers]))]
    show tiktokReplacer.apply s = some s
    exact apply_of_none (h tiktokReplacer (by simp [replacers]))

/-- Witness for claim C5 on "hello world", which no rule matches. -/
theorem c5_identity_no_match_witness :
    (∀ r ∈ replacers, findMatch r.pattern (("hello world").data) = none) ∧
    detectAndFixLinks replacers (("hello world").data) = some (("hello world").data) :=
  ⟨by decide, c5_identity_no_match _ (by decide)⟩

/-- Claim C6: for any rule of the program and any string with exactly N
leftmost non-overlapping matches of the pattern of that rule, the loop
terminates with the one-pass scan result, which carries exactly N
copies of the replacement at the matched positions (`scanRep` emits the
replacement precisely at each matched position and its count is N), and
the result has no remaining match of the pattern of that rule. -/
theorem c6_replacement_count (r : UrlReplacer) (hr : r ∈ replacers)
    (s : List Char) (N : Nat) (hN : countMatches r.pattern s = N) :
    r.apply s = some ((scanRep r.pattern r.replacement s).1) ∧
    (scanRep r.pattern r.replacement s).2 = N ∧
    findMatch r.pattern ((scanRep r.pattern r.replacement s).1) = none := by
  have hg := hGuardAll r hr
  have h1 := apply_eq_scan hg s
  refine ⟨h1, ?_, applyFuel_none_post _ _ _ _ h1⟩
  rw [scanRep_count]
  exact hN

/-- Witness for claim C6: the twitter rule on a string with exactly two
non-overlapping matches. -/
theorem c6_replacement_count_witness :
    twitterReplacer ∈ replacers ∧
    countMatches twitterReplacer.pattern
      (("see https://x.com and http://twitter.com now").data) = 2 ∧
    (twitterReplacer.apply (("see https://x.com and http://twitter.com now").data) =
      some ((scanRep twitterReplacer.pattern twitterReplacer.replacement
        (("see https://x.com and http://twitter.com now").data)).1) ∧
    (scanRep twitterReplacer.pattern twitterReplacer.replacement
      (("see https://x.com and http://twitter.com now").data)).2 = 2 ∧
    findMatch twitterReplacer.pattern
      ((scanRep twitterReplacer.pattern twitterReplacer.replacement
        (("see https://x.com and http://twitter.com now").data)).1) = none) :=
  ⟨by decide, by decide,
    c6_replacement_count twitterReplacer (by decide) _ 2 (by decide)⟩

/-- Claim C7: from any enabled state, toggling monitoring off makes
every subsequent tick (for any sequence of read/write outcomes) a
no-op — no read, no write, state unchanged — until monitoring is
toggled back on. -/
theorem c7_disabled_ticks (st : MonitorState) (inputs : List (List Char × Bool))
    (h : st.isMonitoringEnabled = true) :
    (toggleMonitoring st).isMonitoringEnabled = false ∧
    runTicks (toggleMonitoring st) inputs =
      some (toggleMonitoring st, inputs.map (fun _ => ⟨false, none⟩)) ∧
    (toggleMonitoring (toggleMonitoring st)).isMonitoringEnabled = true := by
  have h1 : (toggleMonitoring st).isMonitoringEnabled = false := by
    simp [toggleMonitoring, h]
  exact ⟨h1, runTicks_disabled _ h1 inputs, by simp [toggleMonitoring, h]⟩

/-- Witness for claim C7: two ticks between a toggle-off and toggle-on. -/
theorem c7_disabled_ticks_witness :
    (⟨[], true⟩ : MonitorState).isMonitoringEnabled = true ∧
    ((toggleMonitoring ⟨[], true⟩).isMonitoringEnabled = false ∧
    runTicks (toggleMonitoring ⟨[], true⟩)
      [(("https://x.com").data, true), ([], false)] =
      some (toggleMonitoring ⟨[], true⟩,
        [(("https://x.com").data, true), (([] : List Char), false)].map
          (fun _ => ⟨false, none⟩)) ∧
    (toggleMonitoring (toggleMonitoring ⟨[], true⟩)).isMonitoringEnabled = true) :=
  ⟨by decide, c7_disabled_ticks _ _ (by decide)⟩

/-- Claim C8: an already-fixed URL is left untouched: the rewrite of
"https://fixupx.com/foo" returns it unchanged. -/
theorem c8_already_fixed :
    detectAndFixLinks replacers (("https://fixupx.com/foo").data) =
      some (("https://fixupx.com/foo").data) := by
  decide

/-- Claim C9: the rewrite of "check this out http://twitter.com/foo"
replaces the twitter URL by the fixupx mirror and preserves the
surrounding text. -/
theorem c9_twitter_scenario :
    detectAndFixLinks replacers (("check this out http://twitter.com/foo").data) =
      some (("check this out https://fixupx.com/foo").data) := by
  decide

/-- Claim C10: a completed tick sequence never assigns the empty string
to `lastClipboardContent`: its final value is nonempty unless it is the
(possibly empty, e.g. initial) starting value left unchanged — every
tick whose read yields empty text (including read failures surfacing as
the empty string) returns before the baseline update. -/
theorem c10_last_nonempty (st : MonitorState) (inputs : List (List Char × Bool))
    (stf : MonitorState) (es : List TickEffects)
    (h : runTicks st inputs = some (stf, es)) :
    stf.lastClipboardContent ≠ [] ∨ stf.lastClipboardContent = st.lastClipboardContent :=
  runTicks_last inputs st stf es h

/-- Witness for claim C10 on a concrete one-tick run from the initial
state. -/
theorem c10_last_nonempty_witness :
    runTicks ⟨[], true⟩ [(("https://x.com").data, false)] =
      some (⟨("https://fixupx.com").data, true⟩,
        [⟨true, some (("https://fixupx.com").data)⟩]) ∧
    ((⟨("https://fixupx.com").data, true⟩ : MonitorState).lastClipboardContent ≠ [] ∨
      (⟨("https://fixupx.com").data, true⟩ : MonitorState).lastClipboardContent =
        (⟨[], true⟩ : MonitorState).lastClipboardContent) :=
  ⟨by decide,
    c10_last_nonempty ⟨[], true⟩ [(("https://x.com").data, false)]
      ⟨("https://fixupx.com").data, true⟩
      [⟨true, some (("https://fixupx.com").data)⟩] (by decide)⟩
